import Mathlib

/-!
Verification of the geo-data loader (`geo_data_fetch.py`).

The program fetches a JSON array of country records over HTTP, builds a
3-letter → 2-letter country-code table, reshapes each record into a
name-keyed entry, and writes the result as indented JSON.

We embed the Python data and functions shallowly:
* JSON values are `JValue`; Python dicts appearing as JSON objects are
  association lists with distinct string keys, looked up with `List.find?`.
* Python truthiness (`if not name`, `if c.get("cca3") and ...`) is the
  function `truthy`.
* Operations that can raise in Python (`.get` on a non-dict, iterating a
  non-iterable, using an unhashable value as a dict key) return
  `Except PyErr`.
-/

/-- A JSON value, as produced by parsing the API response body.
Numbers are modelled as integers; no claim depends on float behaviour. -/
inductive JValue : Type where
  | jnull : JValue
  | jbool : Bool → JValue
  | jnum : Int → JValue
  | jstr : String → JValue
  | jarr : List JValue → JValue
  | jobj : List (String × JValue) → JValue

/-- Errors the Python code can raise while transforming data:
`attributeError` for `.get` on a non-dict, `typeError` for iterating a
non-iterable or using an unhashable value (list/dict) as a dict key. -/
inductive PyErr : Type where
  | attributeError : PyErr
  | typeError : PyErr
deriving DecidableEq

/-- Lookup in a JSON object's field list (a Python dict with string keys). -/
def objLookup (fs : List (String × JValue)) (k : String) : Option JValue :=
  (fs.find? (fun p => p.1 == k)).map (fun p => p.2)

/-- Python truthiness of a JSON value: `None`, `False`, `0`, `""`, `[]`
and `{}` are falsy, everything else is truthy. -/
def truthy : JValue → Bool
  | .jnull => false
  | .jbool b => b
  | .jnum n => n != 0
  | .jstr s => s != ""
  | .jarr xs => !xs.isEmpty
  | .jobj fs => !fs.isEmpty

/-- Whether a JSON value is hashable in Python (usable as a dict key):
lists and dicts are not. -/
def hashable : JValue → Bool
  | .jarr _ => false
  | .jobj _ => false
  | _ => true

/-- Equality test used for dict keys. The Python code only ever compares
hashable keys (it raises `TypeError` before an unhashable value reaches a
dict operation), and hashable JSON values are flat, so this non-recursive
test suffices: on hashable values it is structural equality, and it is
`false` whenever either side is unhashable. -/
def keyEq : JValue → JValue → Bool
  | .jnull, .jnull => true
  | .jbool a, .jbool b => a == b
  | .jnum a, .jnum b => a == b
  | .jstr a, .jstr b => a == b
  | _, _ => false

/-- `c.get(k, dflt)`: succeeds exactly when `c` is a dict, raising
`AttributeError` otherwise. A key present with value `None` yields `None`,
not the default. -/
def pyGet (c : JValue) (k : String) (dflt : JValue) : Except PyErr JValue :=
  match c with
  | .jobj fs => .ok ((objLookup fs k).getD dflt)
  | _ => .error .attributeError

/-- A Python dict with JSON-value keys, in insertion order. -/
abbrev JDict := List (JValue × JValue)

/-- Dict lookup `d.get(k)` (hashability of `k` checked by callers). -/
def jdictGet? (d : JDict) (k : JValue) : Option JValue :=
  (d.find? (fun p => keyEq p.1 k)).map (fun p => p.2)

/-- Dict update `d[k] = v`: an existing key keeps its position and gets the
new value, a new key is appended (Python insertion-order semantics). -/
def jdictInsert (d : JDict) (k v : JValue) : JDict :=
  if d.any (fun p => keyEq p.1 k) then
    d.map (fun p => if keyEq p.1 k then (p.1, v) else p)
  else d ++ [(k, v)]

/-- `for x in v`: arrays yield elements, strings yield their characters as
one-character strings, dicts yield their keys; other values raise
`TypeError`. -/
def pyIterate : JValue → Except PyErr (List JValue)
  | .jarr xs => .ok xs
  | .jstr s => .ok (s.data.map (fun ch => .jstr (String.singleton ch)))
  | .jobj fs => .ok (fs.map (fun p => .jstr p.1))
  | _ => .error .typeError

/-- The loop of `build_cca3_map`'s dict comprehension
`{c.get("cca3"): c.get("cca2") for c in countries if c.get("cca3") and c.get("cca2")}`,
with accumulator. The guard is evaluated first; insertion of an unhashable
key raises `TypeError`. -/
def build_cca3_map_from (countries : List JValue) (acc : JDict) :
    Except PyErr JDict :=
  match countries with
  | [] => .ok acc
  | c :: rest =>
    match pyGet c "cca3" .jnull with
    | .error e => .error e
    | .ok k3 =>
      match pyGet c "cca2" .jnull with
      | .error e => .error e
      | .ok k2 =>
        if truthy k3 && truthy k2 then
          if hashable k3 then build_cca3_map_from rest (jdictInsert acc k3 k2)
          else .error .typeError
        else build_cca3_map_from rest acc

/-- `build_cca3_map(countries)`: map for cca3 → cca2 code conversion. -/
def build_cca3_map (countries : List JValue) : Except PyErr JDict :=
  build_cca3_map_from countries []

/-- Name extraction from an object's field list:
`name_obj = c.get("name", {})`, then
`name = name_obj.get("common") if isinstance(name_obj, dict) else None`. -/
def nameOf (fs : List (String × JValue)) : JValue :=
  match (objLookup fs "name").getD (.jobj []) with
  | .jobj nfs => (objLookup nfs "common").getD .jnull
  | _ => .jnull

/-- `extract_name`: the two name lines of the `process_data` loop,
raising `AttributeError` when the record is not a dict. -/
def extract_name (c : JValue) : Except PyErr JValue :=
  match pyGet c "name" (.jobj []) with
  | .error e => .error e
  | .ok (.jobj nfs) => .ok ((objLookup nfs "common").getD .jnull)
  | .ok _ => .ok .jnull

/-- The border-translation list comprehension
`[cca3_to_cca2.get(b) for b in borders_cca3 if cca3_to_cca2.get(b)]`.
Per element, left to right: looking up an unhashable value raises
`TypeError`; the element is kept exactly when its lookup result is truthy. -/
def translate_borders (m : JDict) : List JValue → Except PyErr (List JValue)
  | [] => .ok []
  | b :: rest =>
    if hashable b then
      let v := (jdictGet? m b).getD .jnull
      match translate_borders m rest with
      | .error e => .error e
      | .ok tl => .ok (if truthy v then v :: tl else tl)
    else .error .typeError

/-- The output entry `{"cca2": cca2, "region": region, "borders": borders_cca2}`. -/
def mkEntry (cca2 region : JValue) (borders : List JValue) : JValue :=
  .jobj [("cca2", cca2), ("region", region), ("borders", .jarr borders)]

/-- One iteration of the `process_data` loop body on record `c`:
`.ok none` when the record is skipped (`if not name or not cca2: continue`),
`.ok (some (name, entry))` when it produces an entry for `formatted[name]`,
`.error _` when the Python body would raise. -/
def emitRecord (m : JDict) (c : JValue) :
    Except PyErr (Option (JValue × JValue)) :=
  match extract_name c with
  | .error e => .error e
  | .ok name =>
    match pyGet c "cca2" .jnull with
    | .error e => .error e
    | .ok cca2 =>
      match pyGet c "region" (.jstr "Unknown") with
      | .error e => .error e
      | .ok region =>
        match pyGet c "borders" (.jarr []) with
        | .error e => .error e
        | .ok borders_cca3 =>
          if !truthy name || !truthy cca2 then .ok none
          else
            match pyIterate borders_cca3 with
            | .error e => .error e
            | .ok bs =>
              match translate_borders m bs with
              | .error e => .error e
              | .ok borders_cca2 =>
                if hashable name then
                  .ok (some (name, mkEntry cca2 region borders_cca2))
                else .error .typeError

/-- The `for c in countries` loop of `process_data`, with accumulator
`formatted`. -/
def process_loop (m : JDict) : List JValue → JDict → Except PyErr JDict
  | [], acc => .ok acc
  | c :: rest, acc =>
    match emitRecord m c with
    | .error e => .error e
    | .ok none => process_loop m rest acc
    | .ok (some (k, v)) => process_loop m rest (jdictInsert acc k v)

/-- `process_data(countries)`: convert to the desired output structure. -/
def process_data (countries : List JValue) : Except PyErr JDict :=
  match build_cca3_map countries with
  | .error e => .error e
  | .ok m => process_loop m countries []

/-- One hexadecimal digit, for JSON control-character escapes. -/
def hexDigit (n : Nat) : Char :=
  if n < 10 then Char.ofNat (48 + n) else Char.ofNat (87 + n)

/-- Escaping of one character as done by `json.dump` with
`ensure_ascii=False`: only quotes, backslashes and control characters are
escaped; everything else is emitted literally. -/
def escapeJsonChar (ch : Char) : String :=
  if ch = '"' then "\\\""
  else if ch = '\\' then "\\\\"
  else if ch = '\n' then "\\n"
  else if ch = '\t' then "\\t"
  else if ch = '\x0d' then "\\r"
  else if ch = '\x08' then "\\b"
  else if ch = '\x0c' then "\\f"
  else if ch.toNat < 32 then
    "\\u00" ++ String.singleton (hexDigit (ch.toNat / 16)) ++
      String.singleton (hexDigit (ch.toNat % 16))
  else String.singleton ch

/-- A JSON string literal. -/
def jsonQuote (s : String) : String :=
  "\"" ++ String.join (s.data.map escapeJsonChar) ++ "\""

/-- `indent=2`: two spaces per nesting level. -/
def indentStr (n : Nat) : String :=
  String.join (List.replicate n "  ")

/-- How `json.dump` renders a non-string dict key: numbers, booleans and
`None` are converted to their JSON spellings; list or dict keys raise
`TypeError` (they cannot occur in a dict anyway). -/
def keyToString : JValue → Except PyErr String
  | .jstr s => .ok s
  | .jnum n => .ok (toString n)
  | .jbool true => .ok "true"
  | .jbool false => .ok "false"
  | .jnull => .ok "null"
  | _ => .error .typeError

mutual

/-- `json.dumps(v, ensure_ascii=False, indent=2)` for a value nested at
level `lvl`. -/
def dumpValue (lvl : Nat) : JValue → String
  | .jnull => "null"
  | .jbool true => "true"
  | .jbool false => "false"
  | .jnum n => toString n
  | .jstr s => jsonQuote s
  | .jarr [] => "[]"
  | .jarr (x :: xs) =>
    "[\n" ++ dumpItems (lvl + 1) (x :: xs) ++ "\n" ++ indentStr lvl ++ "]"
  | .jobj [] => "\x7b\x7d"
  | .jobj (f :: fs) =>
    "\x7b\n" ++ dumpFields (lvl + 1) (f :: fs) ++ "\n" ++ indentStr lvl ++ "\x7d"

/-- Array elements, one per line, comma-separated. -/
def dumpItems (lvl : Nat) : List JValue → String
  | [] => ""
  | [x] => indentStr lvl ++ dumpValue lvl x
  | x :: y :: xs =>
    indentStr lvl ++ dumpValue lvl x ++ ",\n" ++ dumpItems lvl (y :: xs)

/-- Object fields, one per line, comma-separated, `": "` after the key. -/
def dumpFields (lvl : Nat) : List (String × JValue) → String
  | [] => ""
  | [(k, v)] => indentStr lvl ++ jsonQuote k ++ ": " ++ dumpValue lvl v
  | (k, v) :: f :: fs =>
    indentStr lvl ++ jsonQuote k ++ ": " ++ dumpValue lvl v ++ ",\n" ++
      dumpFields lvl (f :: fs)

end

/-- Top-level fields of the output mapping; its keys are arbitrary
hashable values (names extracted from records), converted by `json.dump`
via `keyToString`. -/
def dumpTopFields : JDict → Except PyErr String
  | [] => .ok ""
  | [(k, v)] =>
    match keyToString k with
    | .error e => .error e
    | .ok ks => .ok (indentStr 1 ++ jsonQuote ks ++ ": " ++ dumpValue 1 v)
  | (k, v) :: f :: fs =>
    match keyToString k with
    | .error e => .error e
    | .ok ks =>
      match dumpTopFields (f :: fs) with
      | .error e => .error e
      | .ok tl =>
        .ok (indentStr 1 ++ jsonQuote ks ++ ": " ++ dumpValue 1 v ++ ",\n" ++ tl)

/-- `json.dump(data, f, ensure_ascii=False, indent=2)` applied to the
output mapping: the exact text written to the file. -/
def json_dump (d : JDict) : Except PyErr String :=
  match d with
  | [] => .ok "\x7b\x7d"
  | f :: fs =>
    match dumpTopFields (f :: fs) with
    | .error e => .error e
    | .ok body => .ok ("\x7b\n" ++ body ++ "\n\x7d")

/-- Field lookup on a record, `none` when the record is not an object or
the key is absent. -/
def rawField (c : JValue) (k : String) : Option JValue :=
  match c with
  | .jobj fs => objLookup fs k
  | _ => none

/-- The `cca3` value the loop computes: `c.get("cca3")`, for a dict with
field list `fs`. -/
def cca3Of (fs : List (String × JValue)) : JValue :=
  (objLookup fs "cca3").getD .jnull

/-- The `cca2` value the loop computes: `c.get("cca2")`. -/
def cca2Of (fs : List (String × JValue)) : JValue :=
  (objLookup fs "cca2").getD .jnull

/-- The `region` value the loop computes: `c.get("region", "Unknown")`. -/
def regionOf (fs : List (String × JValue)) : JValue :=
  (objLookup fs "region").getD (.jstr "Unknown")

/-- The `borders` value the loop computes: `c.get("borders", [])`. -/
def bordersOf (fs : List (String × JValue)) : JValue :=
  (objLookup fs "borders").getD (.jarr [])

/-- Field of an output entry (which is a JSON object). -/
def entryField (e : JValue) (k : String) : Option JValue :=
  match e with
  | .jobj efs => objLookup efs k
  | _ => none

/-- Generic scan step: insert the key/value pair `g` extracts from the
record, if any. -/
def insStep (g : JValue → Option (JValue × JValue)) (d : JDict) (c : JValue) :
    JDict :=
  match g c with
  | some (k, v) => jdictInsert d k v
  | none => d

/-- The key/value pair a record contributes to the code table: its
`(cca3, cca2)` when both are truthy, nothing otherwise. -/
def gBuild (c : JValue) : Option (JValue × JValue) :=
  match c with
  | .jobj fs =>
    if truthy (cca3Of fs) && truthy (cca2Of fs) then
      some (cca3Of fs, cca2Of fs)
    else none
  | _ => none

/-- The entry a record contributes to the output mapping, when the loop
body neither skips it nor raises. -/
def emittedEntry (m : JDict) (c : JValue) : Option (JValue × JValue) :=
  match emitRecord m c with
  | .ok (some kv) => some kv
  | _ => none

/-- The value bound to key `n` after scanning `cs` and inserting the pair
`g` extracts from each record, later inserts overwriting earlier ones:
the pair of the latest contributing record, found by searching the
reversed list. -/
def lastInserted (g : JValue → Option (JValue × JValue)) (cs : List JValue)
    (n : JValue) : Option JValue :=
  (cs.reverse.find? (fun c => ((g c).map (fun kv => keyEq kv.1 n)).getD false)).bind
    (fun c => (g c).map (fun kv => kv.2))

/-- Spec wording of the border translation: the borders list mapped
through the CodeTable, with every code that does not resolve to a truthy
(non-empty) value removed, relative order preserved. -/
def spec_translate (m : JDict) (bs : List JValue) : List JValue :=
  bs.filterMap (fun b =>
    match jdictGet? m b with
    | some v => if truthy v then some v else none
    | none => none)

/-- The code table as claim C2 literally words it: scan in input order and
insert `(cca3, cca2)` for every record where both codes are *present*
(regardless of emptiness), later duplicates overwriting earlier ones. -/
def spec_cca3_insert_present (cs : List JValue) : JDict :=
  cs.foldl (fun acc c =>
    match rawField c "cca3", rawField c "cca2" with
    | some k3, some k2 => jdictInsert acc k3 k2
    | _, _ => acc) []

/-- The code table with the amended condition: scan in input order and
insert `(cca3, cca2)` for every record where both codes are present and
truthy (non-empty), later duplicates overwriting earlier ones. -/
def spec_cca3_insert (cs : List JValue) : JDict :=
  cs.foldl (fun acc c =>
    match rawField c "cca3", rawField c "cca2" with
    | some k3, some k2 =>
      if truthy k3 && truthy k2 then jdictInsert acc k3 k2 else acc
    | _, _ => acc) []

/-- A `borders` value whose iteration cannot raise: an array of hashable
elements, a string (iterating yields one-character strings), or a dict
(iterating yields its string keys). -/
def bordersSafe : JValue → Bool
  | .jarr xs => xs.all hashable
  | .jstr _ => true
  | .jobj _ => true
  | _ => false

/-- A record the transformation is guaranteed not to raise on: an object
whose `cca3` value and extracted name are hashable and whose `borders`
value iterates without error into hashable elements. -/
def safeRecord : JValue → Bool
  | .jobj fs =>
    hashable (cca3Of fs) && hashable (nameOf fs) && bordersSafe (bordersOf fs)
  | _ => false

/-- A record whose `cca3` is present but empty while `cca2` is present:
distinguishes "present" from "present and non-empty". -/
def emptyCca3Record : JValue :=
  .jobj [("cca3", .jstr ""), ("cca2", .jstr "US")]

/-- A well-formed record used to instantiate universally quantified
theorems. -/
def syriaRecord : JValue :=
  .jobj [("name", .jobj [("common", .jstr "Syria")]), ("cca2", .jstr "SY"),
    ("cca3", .jstr "SYR"), ("region", .jstr "Asia"),
    ("borders", .jarr [.jstr "IRQ"])]

/-- Its neighbour, giving the code table an entry for `"IRQ"`. -/
def iraqRecord : JValue :=
  .jobj [("name", .jobj [("common", .jstr "Iraq")]), ("cca2", .jstr "IQ"),
    ("cca3", .jstr "IRQ"), ("region", .jstr "Asia"),
    ("borders", .jarr [.jstr "SYR"])]

/-- The state of the output file `app/geodata.json`: `none` when absent. -/
structure FileSystem where
  geodata : Option String
deriving DecidableEq

/-- An HTTP response from the countries API: status code and parsed body. -/
structure HttpResponse where
  status : Nat
  body : JValue

/-- An unrecovered error terminating the run. -/
inductive RunErr : Type where
  | httpStatusError : RunErr
  | pyRaise : PyErr → RunErr
deriving DecidableEq

/-- `fetch_data()`: performs the GET and calls `resp.raise_for_status()`,
which (httpx semantics) raises `HTTPStatusError` unless the status code is
a 2xx success; on success it returns the parsed JSON body. -/
def fetch_data (r : HttpResponse) : Except RunErr JValue :=
  if 200 ≤ r.status ∧ r.status ≤ 299 then .ok r.body
  else .error .httpStatusError

/-- `save_json(path, data)` after serialization: creates the parent
directory if needed and overwrites the output file with the new text. -/
def save_json (fs : FileSystem) (contents : String) : FileSystem :=
  { fs with geodata := some contents }

/-- `main()`: fetch, transform, persist, threading the state of the output
file; on an unrecovered error the file state is returned unchanged. -/
def run_main (r : HttpResponse) (fs : FileSystem) :
    Except RunErr Unit × FileSystem :=
  match fetch_data r with
  | .error e => (.error e, fs)
  | .ok body =>
    match pyIterate body with
    | .error e => (.error (.pyRaise e), fs)
    | .ok countries =>
      match process_data countries with
      | .error e => (.error (.pyRaise e), fs)
      | .ok formatted =>
        match json_dump formatted with
        | .error e => (.error (.pyRaise e), fs)
        | .ok s => (.ok (), save_json fs s)

/-- The transform stage as applied by `main` to the fetched body:
`process_data(countries)` where `countries` is the iterated response
body. -/
def transform_body (body : JValue) : Except PyErr JDict :=
  match pyIterate body with
  | .error e => .error e
  | .ok cs => process_data cs

/-- Two records sharing the common name "Atlantis" with different `cca2`
codes; neither has `region` or `borders`. -/
def atlantisA : JValue :=
  .jobj [("name", .jobj [("common", .jstr "Atlantis")]), ("cca2", .jstr "AA")]

/-- Second record with the same name, later in input order. -/
def atlantisB : JValue :=
  .jobj [("name", .jobj [("common", .jstr "Atlantis")]), ("cca2", .jstr "BB")]

/-- A record whose `region` key is present with value `None`. -/
def nullRegionRecord : JValue :=
  .jobj [("name", .jobj [("common", .jstr "Nowhere")]), ("cca2", .jstr "NW"),
    ("region", .jnull)]

/-! ## Dictionary lemmas -/

theorem keyEq_iff (a b : JValue) :
    keyEq a b = true ↔ a = b ∧ hashable a = true := by
  cases a <;> cases b <;> simp [keyEq, hashable]

theorem keyEq_self {a : JValue} (h : hashable a = true) : keyEq a a = true :=
  (keyEq_iff a a).mpr ⟨rfl, h⟩

theorem jdictGet?_nil (k : JValue) : jdictGet? [] k = none := rfl

theorem jdictGet?_cons (p : JValue × JValue) (d : JDict) (k : JValue) :
    jdictGet? (p :: d) k =
      if keyEq p.1 k then some p.2 else jdictGet? d k := by
  by_cases h : keyEq p.1 k = true
  · simp [jdictGet?, List.find?_cons_of_pos, h]
  · simp only [Bool.not_eq_true] at h
    simp [jdictGet?, List.find?_cons_of_neg, h]

theorem jdictGet?_map_update_ne (d : JDict) (k v k' : JValue)
    (hkk' : keyEq k k' = false) :
    jdictGet? (d.map fun p => if keyEq p.1 k then (p.1, v) else p) k' =
      jdictGet? d k' := by
  induction d with
  | nil => rfl
  | cons p d ih =>
    simp only [List.map_cons]
    rw [jdictGet?_cons, jdictGet?_cons]
    by_cases hpk : keyEq p.1 k = true
    · obtain ⟨hpe, _⟩ := (keyEq_iff _ _).mp hpk
      simp only [hpk, if_pos]
      have h1 : keyEq p.1 k' = false := by rw [hpe]; exact hkk'
      simp [h1, ih]
    · simp only [Bool.not_eq_true] at hpk
      simp [hpk, ih]

theorem jdictGet?_map_update_mem (d : JDict) (k v : JValue)
    (hmem : d.any (fun p => keyEq p.1 k) = true) (hk : hashable k = true) :
    jdictGet? (d.map fun p => if keyEq p.1 k then (p.1, v) else p) k =
      some v := by
  induction d with
  | nil => simp at hmem
  | cons p d ih =>
    simp only [List.map_cons]
    rw [jdictGet?_cons]
    by_cases hpk : keyEq p.1 k = true
    · obtain ⟨hpe, _⟩ := (keyEq_iff _ _).mp hpk
      simp [hpk, hpe, keyEq_self hk]
    · simp only [Bool.not_eq_true] at hpk
      simp only [List.any_cons, hpk, Bool.false_or] at hmem
      simp [hpk, ih hmem]

theorem jdictGet?_append_fresh (d : JDict) (k v k' : JValue)
    (hfresh : ∀ p ∈ d, keyEq p.1 k = false) :
    jdictGet? (d ++ [(k, v)]) k' =
      if keyEq k k' then some v else jdictGet? d k' := by
  induction d with
  | nil => simp [jdictGet?_cons, jdictGet?_nil]
  | cons p d ih =>
    simp only [List.cons_append]
    rw [jdictGet?_cons, jdictGet?_cons]
    by_cases hpk' : keyEq p.1 k' = true
    · obtain ⟨hpe, hph⟩ := (keyEq_iff _ _).mp hpk'
      have hkk' : keyEq k k' = false := by
        by_contra hc
        simp only [Bool.not_eq_false] at hc
        obtain ⟨hke, hkh⟩ := (keyEq_iff _ _).mp hc
        have : keyEq p.1 k = true :=
          (keyEq_iff _ _).mpr ⟨hpe.trans hke.symm, hph⟩
        have := hfresh p (List.mem_cons_self _ _)
        simp_all
      simp [hpk', hkk']
    · simp only [Bool.not_eq_true] at hpk'
      have hrest : ∀ q ∈ d, keyEq q.1 k = false := fun q hq =>
        hfresh q (List.mem_cons_of_mem _ hq)
      simp [hpk', ih hrest]

theorem jdictGet?_insert (d : JDict) (k v k' : JValue) :
    jdictGet? (jdictInsert d k v) k' =
      if keyEq k k' then some v else jdictGet? d k' := by
  unfold jdictInsert
  by_cases hmem : d.any (fun p => keyEq p.1 k) = true
  · simp only [hmem, if_pos]
    by_cases hkk' : keyEq k k' = true
    · obtain ⟨hke, hkh⟩ := (keyEq_iff _ _).mp hkk'
      subst hke
      simp [hkk', jdictGet?_map_update_mem d k v hmem hkh]
    · simp only [Bool.not_eq_true] at hkk'
      simp [hkk', jdictGet?_map_update_ne d k v k' hkk']
  · rw [Bool.not_eq_true] at hmem
    have hfresh : ∀ p ∈ d, keyEq p.1 k = false := by
      intro p hp
      by_contra hc
      simp only [Bool.not_eq_false] at hc
      have hany : d.any (fun p => keyEq p.1 k) = true :=
        List.any_eq_true.mpr ⟨p, hp, hc⟩
      rw [hmem] at hany
      exact Bool.false_ne_true hany
    simp [hmem, jdictGet?_append_fresh d k v k' hfresh]

theorem mem_jdictInsert {kv : JValue × JValue} {d : JDict} {k v : JValue}
    (h : kv ∈ jdictInsert d k v) : kv ∈ d ∨ kv = (k, v) := by
  unfold jdictInsert at h
  by_cases hmem : d.any (fun p => keyEq p.1 k) = true
  · simp only [hmem, if_pos] at h
    obtain ⟨p, hp, hpe⟩ := List.mem_map.mp h
    by_cases hpk : keyEq p.1 k = true
    · obtain ⟨hpe1, _⟩ := (keyEq_iff _ _).mp hpk
      right
      simp only [hpk, if_pos] at hpe
      rw [← hpe, hpe1]
    · simp only [Bool.not_eq_true] at hpk
      left
      simp only [hpk, Bool.false_eq_true, if_false] at hpe
      rw [← hpe]; exact hp
  · simp only [hmem, if_neg, Bool.not_eq_true] at *
    rcases List.mem_append.mp h with h1 | h1
    · exact Or.inl h1
    · exact Or.inr (List.mem_singleton.mp h1)

theorem jdictInsert_pairwise {d : JDict} {k v : JValue}
    (h : d.Pairwise (fun a b => keyEq a.1 b.1 = false)) :
    (jdictInsert d k v).Pairwise (fun a b => keyEq a.1 b.1 = false) := by
  unfold jdictInsert
  by_cases hmem : d.any (fun p => keyEq p.1 k) = true
  · simp only [hmem, if_pos]
    refine List.Pairwise.map _ (fun a b hab => ?_) h
    have ha : (if keyEq a.1 k then (a.1, v) else a).1 = a.1 := by
      by_cases hc : keyEq a.1 k = true <;> simp [hc]
    have hb : (if keyEq b.1 k then (b.1, v) else b).1 = b.1 := by
      by_cases hc : keyEq b.1 k = true <;> simp [hc]
    rw [ha, hb]; exact hab
  · rw [Bool.not_eq_true] at hmem
    simp only [hmem, Bool.false_eq_true, if_false]
    rw [List.pairwise_append]
    refine ⟨h, List.pairwise_singleton _ _, ?_⟩
    intro a ha b hb
    rw [List.mem_singleton.mp hb]
    by_contra hc
    simp only [Bool.not_eq_false] at hc
    have hany : d.any (fun p => keyEq p.1 k) = true :=
      List.any_eq_true.mpr ⟨a, ha, hc⟩
    rw [hmem] at hany
    exact Bool.false_ne_true hany

/-! ## Scan lemmas: folding insertions and last-write-wins lookup -/

theorem find?_singleton (p : α → Bool) (a : α) :
    [a].find? p = if p a then some a else none := by
  by_cases h : p a = true
  · simp [List.find?_cons_of_pos, h]
  · simp only [Bool.not_eq_true] at h
    simp [List.find?_cons_of_neg, h]

theorem foldl_insStep_lookup (g : JValue → Option (JValue × JValue)) :
    ∀ (cs : List JValue) (acc : JDict) (n : JValue),
      jdictGet? (cs.foldl (insStep g) acc) n =
        (lastInserted g cs n).or (jdictGet? acc n) := by
  intro cs
  induction cs with
  | nil => intro acc n; simp [lastInserted]
  | cons c cs ih =>
    intro acc n
    rw [List.foldl_cons, ih]
    unfold lastInserted
    rw [List.reverse_cons, List.find?_append]
    cases hfind : cs.reverse.find? (fun c =>
        ((g c).map (fun kv => keyEq kv.1 n)).getD false) with
    | some x =>
      have hx := List.find?_some hfind
      cases hgx : g x with
      | none => simp [hgx] at hx
      | some kv => simp [hgx]
    | none =>
      simp only [Option.none_or]
      cases hg : g c with
      | none =>
        have : insStep g acc c = acc := by simp [insStep, hg]
        rw [this, find?_singleton]
        simp [hg]
      | some kv =>
        obtain ⟨k, v⟩ := kv
        have : insStep g acc c = jdictInsert acc k v := by simp [insStep, hg]
        rw [this, jdictGet?_insert, find?_singleton]
        by_cases hkn : keyEq k n = true
        · simp [hg, hkn]
        · simp only [Bool.not_eq_true] at hkn
          simp [hg, hkn]

theorem process_loop_ok_eq (m : JDict) :
    ∀ (cs : List JValue) (acc out : JDict),
      process_loop m cs acc = .ok out →
        out = cs.foldl (insStep (emittedEntry m)) acc := by
  intro cs
  induction cs with
  | nil =>
    intro acc out h
    simp only [process_loop, Except.ok.injEq] at h
    simp [h]
  | cons c cs ih =>
    intro acc out h
    rw [List.foldl_cons]
    cases he : emitRecord m c with
    | error e => simp [process_loop, he] at h
    | ok o =>
      cases o with
      | none =>
        simp only [process_loop, he] at h
        have : insStep (emittedEntry m) acc c = acc := by
          simp [insStep, emittedEntry, he]
        rw [this]
        exact ih acc out h
      | some kv =>
        obtain ⟨k, v⟩ := kv
        simp only [process_loop, he] at h
        have : insStep (emittedEntry m) acc c = jdictInsert acc k v := by
          simp [insStep, emittedEntry, he]
        rw [this]
        exact ih _ out h

theorem build_from_ok_eq :
    ∀ (cs : List JValue) (acc m : JDict),
      build_cca3_map_from cs acc = .ok m →
        m = cs.foldl (insStep gBuild) acc := by
  intro cs
  induction cs with
  | nil =>
    intro acc m h
    simp only [build_cca3_map_from, Except.ok.injEq] at h
    simp [h]
  | cons c cs ih =>
    intro acc m h
    rw [List.foldl_cons]
    cases c with
    | jobj fs =>
      simp only [build_cca3_map_from, pyGet] at h
      by_cases hel :
          (truthy ((objLookup fs "cca3").getD .jnull) &&
            truthy ((objLookup fs "cca2").getD .jnull)) = true
      · by_cases hh : hashable ((objLookup fs "cca3").getD .jnull) = true
        · simp only [hel, hh, if_pos] at h
          have : insStep gBuild acc (.jobj fs) =
              jdictInsert acc ((objLookup fs "cca3").getD .jnull)
                ((objLookup fs "cca2").getD .jnull) := by
            simp [insStep, gBuild, cca3Of, cca2Of, hel]
          rw [this]
          exact ih _ m h
        · simp only [Bool.not_eq_true] at hh
          simp [hel, hh] at h
      · simp only [Bool.not_eq_true] at hel
        simp only [hel, Bool.false_eq_true, if_false] at h
        have : insStep gBuild acc (.jobj fs) = acc := by
          simp [insStep, gBuild, cca3Of, cca2Of, hel]
        rw [this]
        exact ih _ m h
    | jnull => simp [build_cca3_map_from, pyGet] at h
    | jbool b => simp [build_cca3_map_from, pyGet] at h
    | jnum n => simp [build_cca3_map_from, pyGet] at h
    | jstr s => simp [build_cca3_map_from, pyGet] at h
    | jarr xs => simp [build_cca3_map_from, pyGet] at h

/-! ## Per-record lemmas -/

theorem extract_name_obj (fs : List (String × JValue)) :
    extract_name (.jobj fs) = .ok (nameOf fs) := by
  cases hX : (objLookup fs "name").getD (.jobj []) <;>
    simp [extract_name, pyGet, nameOf, hX]

theorem emitRecord_obj (m : JDict) (fs : List (String × JValue)) :
    emitRecord m (.jobj fs) =
      if !truthy (nameOf fs) || !truthy (cca2Of fs) then .ok none
      else
        match pyIterate (bordersOf fs) with
        | .error e => .error e
        | .ok bs =>
          match translate_borders m bs with
          | .error e => .error e
          | .ok bc =>
            if hashable (nameOf fs) then
              .ok (some (nameOf fs, mkEntry (cca2Of fs) (regionOf fs) bc))
            else .error .typeError := by
  unfold emitRecord
  rw [extract_name_obj]
  rfl

theorem emitRecord_nonobj (m : JDict) (c : JValue)
    (h : ∀ fs, c ≠ .jobj fs) :
    emitRecord m c = .error .attributeError := by
  cases c with
  | jobj fs => exact absurd rfl (h fs)
  | jnull => rfl
  | jbool b => rfl
  | jnum n => rfl
  | jstr s => rfl
  | jarr xs => rfl

theorem translate_borders_ok (m : JDict) :
    ∀ (bs res : List JValue), translate_borders m bs = .ok res →
      res = spec_translate m bs := by
  intro bs
  induction bs with
  | nil =>
    intro res h
    simp only [translate_borders, Except.ok.injEq] at h
    simp [spec_translate, ← h]
  | cons b rest ih =>
    intro res h
    by_cases hhb : hashable b = true
    · simp only [translate_borders, hhb, if_pos] at h
      cases htl : translate_borders m rest with
      | error e => rw [htl] at h; exact absurd h (by simp)
      | ok tl =>
        rw [htl] at h
        simp only [Except.ok.injEq] at h
        have htl' := ih tl htl
        cases hbv : jdictGet? m b with
        | none =>
          simp only [hbv, Option.getD_none] at h
          simp only [truthy, Bool.false_eq_true, if_false] at h
          simp [spec_translate, hbv, ← h, htl', spec_translate]
        | some v =>
          simp only [hbv, Option.getD_some] at h
          by_cases hv : truthy v = true
          · simp only [hv, if_pos] at h
            simp [spec_translate, hbv, hv, ← h, htl']
          · simp only [Bool.not_eq_true] at hv
            simp only [hv, Bool.false_eq_true, if_false] at h
            simp [spec_translate, hbv, hv, ← h, htl']
    · simp [translate_borders, hhb] at h

theorem mem_spec_translate {m : JDict} {bs : List JValue} {x : JValue}
    (h : x ∈ spec_translate m bs) :
    truthy x = true ∧ ∃ b ∈ bs, jdictGet? m b = some x := by
  unfold spec_translate at h
  obtain ⟨b, hb, heq⟩ := List.mem_filterMap.mp h
  cases hbv : jdictGet? m b with
  | none => rw [hbv] at heq; exact absurd heq (by simp)
  | some v =>
    rw [hbv] at heq
    by_cases hv : truthy v = true
    · simp only [hv, if_true] at heq
      obtain rfl : v = x := by injection heq
      exact ⟨hv, b, hb, hbv⟩
    · simp [hv] at heq

theorem emitRecord_some_spec {m : JDict} {c : JValue} {kv : JValue × JValue}
    (h : emitRecord m c = .ok (some kv)) :
    ∃ fs bs, c = .jobj fs ∧
      truthy (nameOf fs) = true ∧ truthy (cca2Of fs) = true ∧
      hashable (nameOf fs) = true ∧
      pyIterate (bordersOf fs) = .ok bs ∧
      kv = (nameOf fs, mkEntry (cca2Of fs) (regionOf fs)
        (spec_translate m bs)) := by
  cases c with
  | jobj fs =>
    rw [emitRecord_obj] at h
    by_cases hskip : (!truthy (nameOf fs) || !truthy (cca2Of fs)) = true
    · rw [if_pos hskip] at h
      exact absurd h (by simp)
    · rw [if_neg hskip] at h
      simp only [Bool.or_eq_true, Bool.not_eq_true', Bool.not_eq_false] at hskip
      push_neg at hskip
      have hname : truthy (nameOf fs) = true := by
        by_contra hc
        simp only [Bool.not_eq_true] at hc
        exact hskip.1 hc
      have hcca2 : truthy (cca2Of fs) = true := by
        by_contra hc
        simp only [Bool.not_eq_true] at hc
        exact hskip.2 hc
      cases hbs : pyIterate (bordersOf fs) with
      | error e => simp [hbs] at h
      | ok bs =>
        simp only [hbs] at h
        cases hbc : translate_borders m bs with
        | error e => simp [hbc] at h
        | ok bc =>
          simp only [hbc] at h
          by_cases hh : hashable (nameOf fs) = true
          · rw [if_pos hh] at h
            simp only [Except.ok.injEq, Option.some.injEq] at h
            refine ⟨fs, bs, rfl, hname, hcca2, hh, hbs, ?_⟩
            rw [← h, translate_borders_ok m bs bc hbc]
          · rw [if_neg hh] at h
            exact absurd h (by simp)
  | jnull => rw [emitRecord_nonobj m _ (by intro fs hc; exact JValue.noConfusion hc)] at h; exact absurd h (by simp)
  | jbool b => rw [emitRecord_nonobj m _ (by intro fs hc; exact JValue.noConfusion hc)] at h; exact absurd h (by simp)
  | jnum n => rw [emitRecord_nonobj m _ (by intro fs hc; exact JValue.noConfusion hc)] at h; exact absurd h (by simp)
  | jstr s => rw [emitRecord_nonobj m _ (by intro fs hc; exact JValue.noConfusion hc)] at h; exact absurd h (by simp)
  | jarr xs => rw [emitRecord_nonobj m _ (by intro fs hc; exact JValue.noConfusion hc)] at h; exact absurd h (by simp)

/-! ## Origin of output entries -/

theorem process_loop_origin (m : JDict) :
    ∀ (cs : List JValue) (acc out : JDict), process_loop m cs acc = .ok out →
      ∀ kv ∈ out, kv ∈ acc ∨ ∃ c ∈ cs, emitRecord m c = .ok (some kv) := by
  intro cs
  induction cs with
  | nil =>
    intro acc out h kv hkv
    simp only [process_loop, Except.ok.injEq] at h
    exact Or.inl (h ▸ hkv)
  | cons c cs ih =>
    intro acc out h kv hkv
    cases he : emitRecord m c with
    | error e => simp [process_loop, he] at h
    | ok o =>
      cases o with
      | none =>
        simp only [process_loop, he] at h
        rcases ih acc out h kv hkv with hin | ⟨c', hc', hce⟩
        · exact Or.inl hin
        · exact Or.inr ⟨c', List.mem_cons_of_mem _ hc', hce⟩
      | some kv' =>
        obtain ⟨k, v⟩ := kv'
        simp only [process_loop, he] at h
        rcases ih _ out h kv hkv with hin | ⟨c', hc', hce⟩
        · rcases mem_jdictInsert hin with hin2 | hkveq
          · exact Or.inl hin2
          · exact Or.inr ⟨c, List.mem_cons_self _ _, hkveq ▸ he⟩
        · exact Or.inr ⟨c', List.mem_cons_of_mem _ hc', hce⟩

theorem process_data_parts {countries : List JValue} {out : JDict}
    (h : process_data countries = .ok out) :
    ∃ m, build_cca3_map countries = .ok m ∧
      process_loop m countries [] = .ok out := by
  unfold process_data at h
  cases hb : build_cca3_map countries with
  | error e => rw [hb] at h; exact absurd h (by simp)
  | ok m => rw [hb] at h; exact ⟨m, rfl, h⟩

/-! ## Totality on safe records -/

theorem translate_borders_total (m : JDict) :
    ∀ bs : List JValue, (∀ b ∈ bs, hashable b = true) →
      ∃ r, translate_borders m bs = .ok r := by
  intro bs
  induction bs with
  | nil => intro _; exact ⟨[], rfl⟩
  | cons b rest ih =>
    intro h
    obtain ⟨tl, htl⟩ := ih (fun x hx => h x (List.mem_cons_of_mem _ hx))
    have hb := h b (List.mem_cons_self _ _)
    refine ⟨if truthy ((jdictGet? m b).getD .jnull) then
      (jdictGet? m b).getD .jnull :: tl else tl, ?_⟩
    simp [translate_borders, hb, htl]

theorem pyIterate_safe :
    ∀ v : JValue, bordersSafe v = true →
      ∃ bs, pyIterate v = .ok bs ∧ ∀ b ∈ bs, hashable b = true := by
  intro v hv
  cases v with
  | jarr xs =>
    refine ⟨xs, rfl, ?_⟩
    intro b hb
    simp only [bordersSafe, List.all_eq_true] at hv
    exact hv b hb
  | jstr s =>
    refine ⟨s.data.map (fun ch => .jstr (String.singleton ch)), rfl, ?_⟩
    intro b hb
    obtain ⟨ch, _, rfl⟩ := List.mem_map.mp hb
    rfl
  | jobj fs =>
    refine ⟨fs.map (fun (p : String × JValue) => JValue.jstr p.1), rfl, ?_⟩
    intro b hb
    obtain ⟨p, _, rfl⟩ := List.mem_map.mp hb
    rfl
  | jnull => simp [bordersSafe] at hv
  | jbool b => simp [bordersSafe] at hv
  | jnum n => simp [bordersSafe] at hv

theorem emitRecord_total (m : JDict) (c : JValue)
    (hsafe : safeRecord c = true) : ∃ o, emitRecord m c = .ok o := by
  cases c with
  | jobj fs =>
    simp only [safeRecord, Bool.and_eq_true] at hsafe
    obtain ⟨⟨_, hname⟩, hbord⟩ := hsafe
    rw [emitRecord_obj]
    by_cases hskip : (!truthy (nameOf fs) || !truthy (cca2Of fs)) = true
    · exact ⟨none, by rw [if_pos hskip]⟩
    · rw [if_neg hskip]
      obtain ⟨bs, hbs, hbsh⟩ := pyIterate_safe _ hbord
      obtain ⟨bc, hbc⟩ := translate_borders_total m bs hbsh
      rw [hbs]
      simp only [hbc]
      rw [if_pos hname]
      exact ⟨_, rfl⟩
  | jnull => simp [safeRecord] at hsafe
  | jbool b => simp [safeRecord] at hsafe
  | jnum n => simp [safeRecord] at hsafe
  | jstr s => simp [safeRecord] at hsafe
  | jarr xs => simp [safeRecord] at hsafe

theorem process_loop_total (m : JDict) :
    ∀ (cs : List JValue) (acc : JDict),
      (∀ c ∈ cs, safeRecord c = true) →
      ∃ out, process_loop m cs acc = .ok out := by
  intro cs
  induction cs with
  | nil => intro acc _; exact ⟨acc, rfl⟩
  | cons c cs ih =>
    intro acc h
    obtain ⟨o, ho⟩ := emitRecord_total m c (h c (List.mem_cons_self _ _))
    have hrest : ∀ c' ∈ cs, safeRecord c' = true :=
      fun c' hc' => h c' (List.mem_cons_of_mem _ hc')
    cases o with
    | none =>
      obtain ⟨out, hout⟩ := ih acc hrest
      exact ⟨out, by simp [process_loop, ho, hout]⟩
    | some kv =>
      obtain ⟨k, v⟩ := kv
      obtain ⟨out, hout⟩ := ih (jdictInsert acc k v) hrest
      exact ⟨out, by simp [process_loop, ho, hout]⟩

theorem build_from_total :
    ∀ (cs : List JValue) (acc : JDict),
      (∀ c ∈ cs, safeRecord c = true) →
      ∃ m, build_cca3_map_from cs acc = .ok m := by
  intro cs
  induction cs with
  | nil => intro acc _; exact ⟨acc, rfl⟩
  | cons c cs ih =>
    intro acc h
    have hrest : ∀ c' ∈ cs, safeRecord c' = true :=
      fun c' hc' => h c' (List.mem_cons_of_mem _ hc')
    have hc := h c (List.mem_cons_self _ _)
    cases c with
    | jobj fs =>
      simp only [safeRecord, Bool.and_eq_true] at hc
      obtain ⟨⟨h3, _⟩, _⟩ := hc
      by_cases hel :
          (truthy ((objLookup fs "cca3").getD .jnull) &&
            truthy ((objLookup fs "cca2").getD .jnull)) = true
      · obtain ⟨m, hm⟩ := ih (jdictInsert acc ((objLookup fs "cca3").getD .jnull)
          ((objLookup fs "cca2").getD .jnull)) hrest
        refine ⟨m, ?_⟩
        simp only [build_cca3_map_from, pyGet, hel, if_pos]
        rw [if_pos (by exact h3)]
        exact hm
      · obtain ⟨m, hm⟩ := ih acc hrest
        refine ⟨m, ?_⟩
        simp only [Bool.not_eq_true] at hel
        simp only [build_cca3_map_from, pyGet, hel, Bool.false_eq_true, if_false]
        exact hm
    | jnull => simp [safeRecord] at hc
    | jbool b => simp [safeRecord] at hc
    | jnum n => simp [safeRecord] at hc
    | jstr s => simp [safeRecord] at hc
    | jarr xs => simp [safeRecord] at hc

/-! ## Entry shape and accumulator invariants -/

theorem entryField_cca2 (c r : JValue) (b : List JValue) :
    entryField (mkEntry c r b) "cca2" = some c := rfl

theorem entryField_region (c r : JValue) (b : List JValue) :
    entryField (mkEntry c r b) "region" = some r := rfl

theorem entryField_borders (c r : JValue) (b : List JValue) :
    entryField (mkEntry c r b) "borders" = some (.jarr b) := rfl

theorem foldl_insStep_pairwise (g : JValue → Option (JValue × JValue)) :
    ∀ (cs : List JValue) (acc : JDict),
      acc.Pairwise (fun a b => keyEq a.1 b.1 = false) →
      (cs.foldl (insStep g) acc).Pairwise (fun a b => keyEq a.1 b.1 = false) := by
  intro cs
  induction cs with
  | nil => intro acc h; exact h
  | cons c cs ih =>
    intro acc h
    rw [List.foldl_cons]
    refine ih _ ?_
    unfold insStep
    cases g c with
    | none => exact h
    | some kv => exact jdictInsert_pairwise h

theorem nameOf_of_name_absent {fs : List (String × JValue)}
    (h : objLookup fs "name" = none) : nameOf fs = .jnull := by
  unfold nameOf
  rw [h]
  rfl

theorem nameOf_of_name_not_object {fs : List (String × JValue)} {v : JValue}
    (h : objLookup fs "name" = some v) (hv : ∀ nfs, v ≠ .jobj nfs) :
    nameOf fs = .jnull := by
  unfold nameOf
  rw [h, Option.getD_some]
  cases v with
  | jobj nfs => exact absurd rfl (hv nfs)
  | jnull => rfl
  | jbool b => rfl
  | jnum n => rfl
  | jstr s => rfl
  | jarr xs => rfl

theorem nameOf_of_common_absent {fs : List (String × JValue)}
    {nfs : List (String × JValue)}
    (h : objLookup fs "name" = some (.jobj nfs))
    (hc : objLookup nfs "common" = none) : nameOf fs = .jnull := by
  unfold nameOf
  rw [h, Option.getD_some]
  simp [hc]

theorem run_main_components (r : HttpResponse) (fs₁ fs₂ : FileSystem) :
    (run_main r fs₁).1 = (run_main r fs₂).1 ∧
      ((run_main r fs₁).1 = .ok () → (run_main r fs₁).2 = (run_main r fs₂).2) := by
  unfold run_main
  cases fetch_data r with
  | error e => exact ⟨rfl, fun hok => absurd hok (by simp)⟩
  | ok body =>
    dsimp only
    cases pyIterate body with
    | error e => exact ⟨rfl, fun hok => absurd hok (by simp)⟩
    | ok cs =>
      dsimp only
      cases process_data cs with
      | error e => exact ⟨rfl, fun hok => absurd hok (by simp)⟩
      | ok formatted =>
        dsimp only
        cases json_dump formatted with
        | error e => exact ⟨rfl, fun hok => absurd hok (by simp)⟩
        | ok s => exact ⟨rfl, fun _ => rfl⟩

/-! ## Claim theorems -/

/-- Claim C1: a record (an object) whose `name` field is missing, or is not
an object, or whose name object lacks `"common"`, or whose `cca2` is
absent, contributes no entry to the output of `process_data`: the loop
body returns `.ok none` (skipped, no error) and leaves the accumulator
unchanged; moreover every entry `process_data` does emit has a truthy
(neither null nor empty) name key and a truthy `cca2` field. -/
theorem records_missing_name_or_cca2_skipped :
    (∀ (m : JDict) (fs : List (String × JValue)) (rest : List JValue)
      (acc : JDict),
      (objLookup fs "name" = none ∨
        (∃ v, objLookup fs "name" = some v ∧ ∀ nfs, v ≠ JValue.jobj nfs) ∨
        (∃ nfs, objLookup fs "name" = some (.jobj nfs) ∧
          objLookup nfs "common" = none) ∨
        objLookup fs "cca2" = none) →
      emitRecord m (.jobj fs) = .ok none ∧
      process_loop m (.jobj fs :: rest) acc = process_loop m rest acc) ∧
    (∀ (countries : List JValue) (out : JDict),
      process_data countries = .ok out →
      ∀ kv ∈ out, truthy kv.1 = true ∧
        ∃ v, entryField kv.2 "cca2" = some v ∧ truthy v = true) := by
  constructor
  · intro m fs rest acc h
    have hfalsy : truthy (nameOf fs) = false ∨ truthy (cca2Of fs) = false := by
      rcases h with h1 | ⟨v, h2, hv⟩ | ⟨nfs, h3, hc⟩ | h4
      · exact Or.inl (by rw [nameOf_of_name_absent h1]; rfl)
      · exact Or.inl (by rw [nameOf_of_name_not_object h2 hv]; rfl)
      · exact Or.inl (by rw [nameOf_of_common_absent h3 hc]; rfl)
      · exact Or.inr (by unfold cca2Of; rw [h4]; rfl)
    have hcond : (!truthy (nameOf fs) || !truthy (cca2Of fs)) = true := by
      rcases hfalsy with hf | hf <;> simp [hf]
    have hemit : emitRecord m (.jobj fs) = .ok none := by
      rw [emitRecord_obj, if_pos hcond]
    exact ⟨hemit, by simp [process_loop, hemit]⟩
  · intro countries out hp kv hkv
    obtain ⟨m, hm, hloop⟩ := process_data_parts hp
    rcases process_loop_origin m countries [] out hloop kv hkv with
      hin | ⟨c, _, hce⟩
    · exact absurd hin (List.not_mem_nil _)
    · obtain ⟨fs, bs, _, hname, hcca2, _, _, hkveq⟩ :=
        emitRecord_some_spec hce
      rw [hkveq]
      exact ⟨hname, cca2Of fs, entryField_cca2 _ _ _, hcca2⟩

/-- Witness for C1: a record with only `cca2` is skipped without error,
and the Syria entry emitted from a concrete run has a truthy name. -/
theorem records_missing_name_or_cca2_skipped_witness :
    emitRecord [] (.jobj [("cca2", .jstr "US")]) = .ok none ∧
    truthy (JValue.jstr "Syria") = true := by
  refine ⟨(records_missing_name_or_cca2_skipped.1 [] [("cca2", .jstr "US")]
    [] [] (Or.inl rfl)).1, ?_⟩
  exact (records_missing_name_or_cca2_skipped.2 [syriaRecord, iraqRecord]
    [(.jstr "Syria", mkEntry (.jstr "SY") (.jstr "Asia") [.jstr "IQ"]),
     (.jstr "Iraq", mkEntry (.jstr "IQ") (.jstr "Asia") [.jstr "SY"])] rfl
    (.jstr "Syria", mkEntry (.jstr "SY") (.jstr "Asia") [.jstr "IQ"])
    (List.mem_cons_self _ _)).1

/-- Counterexample to Claim C2 as stated: with the insertion condition
"both codes present", a record whose `cca3` is present but empty would
contribute the pair `("", "US")`, yet `build_cca3_map` inserts nothing
(its condition is Python truthiness, so present-but-empty is skipped). -/
theorem build_cca3_map_present_condition_fails :
    build_cca3_map [emptyCca3Record] = .ok [] ∧
    spec_cca3_insert_present [emptyCca3Record] =
      [(.jstr "", .jstr "US")] ∧
    ([] : JDict) ≠ [(JValue.jstr "", JValue.jstr "US")] :=
  ⟨rfl, rfl, by simp⟩

/-- Claim C2 (amended): when `build_cca3_map` succeeds, its result is
exactly the scan that inserts `(cca3, cca2)` for every record where both
codes are present and non-empty (truthy), later duplicates overwriting
earlier ones; lookup therefore returns the `cca2` of the latest inserting
record in input order. -/
theorem build_cca3_map_matches_truthy_spec :
    ∀ (countries : List JValue) (m : JDict),
      build_cca3_map countries = .ok m →
      m = spec_cca3_insert countries ∧
      ∀ k, jdictGet? m k = lastInserted gBuild countries k := by
  intro countries m h
  have hm := build_from_ok_eq countries [] m h
  have hspec : spec_cca3_insert countries =
      countries.foldl (insStep gBuild) [] := by
    unfold spec_cca3_insert
    refine List.foldl_ext _ _ _ (fun acc c _ => ?_)
    cases c with
    | jobj fsc =>
      unfold insStep gBuild rawField cca3Of cca2Of
      cases h3 : objLookup fsc "cca3" with
      | none => simp [h3, truthy]
      | some k3 =>
        cases h2 : objLookup fsc "cca2" with
        | none => simp [h3, h2, truthy]
        | some k2 =>
          simp only [h3, h2, Option.getD_some]
          by_cases hc : (truthy k3 && truthy k2) = true
          · simp [hc]
          · simp only [Bool.not_eq_true] at hc
            simp [hc]
    | jnull => rfl
    | jbool b => rfl
    | jnum n => rfl
    | jstr s => rfl
    | jarr xs => rfl
  constructor
  · rw [hm, hspec]
  · intro k
    rw [hm, foldl_insStep_lookup, jdictGet?_nil, Option.or_none]

/-- Witness for amended C2: on a concrete run both characterizations are
discharged. -/
theorem build_cca3_map_matches_truthy_spec_witness :
    ([(JValue.jstr "SYR", JValue.jstr "SY")] : JDict) =
      spec_cca3_insert [syriaRecord] ∧
    jdictGet? [(JValue.jstr "SYR", JValue.jstr "SY")] (.jstr "SYR") =
      lastInserted gBuild [syriaRecord] (.jstr "SYR") :=
  ⟨(build_cca3_map_matches_truthy_spec [syriaRecord]
      [(JValue.jstr "SYR", JValue.jstr "SY")] rfl).1,
   (build_cca3_map_matches_truthy_spec [syriaRecord]
      [(JValue.jstr "SYR", JValue.jstr "SY")] rfl).2 (.jstr "SYR")⟩

/-- Claim C3: every emitted entry's borders list equals the record's
borders sequence mapped through the code table with unresolved (or
falsy-resolving) codes removed, order preserved; each element is a code
table value at some key of the input borders sequence and is truthy, so
never null or empty. -/
theorem output_borders_translated :
    ∀ (countries : List JValue) (out : JDict),
      process_data countries = .ok out →
      ∀ kv ∈ out, ∃ m fs bs,
        build_cca3_map countries = .ok m ∧
        JValue.jobj fs ∈ countries ∧
        pyIterate (bordersOf fs) = .ok bs ∧
        entryField kv.2 "borders" = some (.jarr (spec_translate m bs)) ∧
        ∀ x ∈ spec_translate m bs,
          truthy x = true ∧ ∃ b ∈ bs, jdictGet? m b = some x := by
  intro countries out hp kv hkv
  obtain ⟨m, hm, hloop⟩ := process_data_parts hp
  rcases process_loop_origin m countries [] out hloop kv hkv with
    hin | ⟨c, hcmem, hce⟩
  · exact absurd hin (List.not_mem_nil _)
  · obtain ⟨fs, bs, rfl, _, _, _, hbs, hkveq⟩ := emitRecord_some_spec hce
    refine ⟨m, fs, bs, hm, hcmem, hbs, ?_, ?_⟩
    · simp only [hkveq]
      exact entryField_borders _ _ _
    · intro x hx
      exact mem_spec_translate hx

/-- Witness for C3 on the Syria/Iraq run. -/
theorem output_borders_translated_witness :
    ∃ m fs bs,
      build_cca3_map [syriaRecord, iraqRecord] = .ok m ∧
      JValue.jobj fs ∈ [syriaRecord, iraqRecord] ∧
      pyIterate (bordersOf fs) = .ok bs ∧
      entryField (mkEntry (.jstr "SY") (.jstr "Asia") [.jstr "IQ"])
        "borders" = some (.jarr (spec_translate m bs)) ∧
      ∀ x ∈ spec_translate m bs,
        truthy x = true ∧ ∃ b ∈ bs, jdictGet? m b = some x :=
  output_borders_translated [syriaRecord, iraqRecord]
    [(.jstr "Syria", mkEntry (.jstr "SY") (.jstr "Asia") [.jstr "IQ"]),
     (.jstr "Iraq", mkEntry (.jstr "IQ") (.jstr "Asia") [.jstr "SY"])] rfl
    (.jstr "Syria", mkEntry (.jstr "SY") (.jstr "Asia") [.jstr "IQ"])
    (List.mem_cons_self _ _)

/-- Claim C4: for every emitted entry there is an originating input record
(an object); the entry's `region` field equals that record's region value
when the `region` key is present, and the literal string `"Unknown"` when
it is absent. -/
theorem output_region_from_input :
    ∀ (countries : List JValue) (out : JDict),
      process_data countries = .ok out →
      ∀ kv ∈ out, ∃ fs, JValue.jobj fs ∈ countries ∧
        (match objLookup fs "region" with
         | some v => entryField kv.2 "region" = some v
         | none => entryField kv.2 "region" = some (.jstr "Unknown")) := by
  intro countries out hp kv hkv
  obtain ⟨m, _, hloop⟩ := process_data_parts hp
  rcases process_loop_origin m countries [] out hloop kv hkv with
    hin | ⟨c, hcmem, hce⟩
  · exact absurd hin (List.not_mem_nil _)
  · obtain ⟨fs, bs, rfl, _, _, _, _, hkveq⟩ := emitRecord_some_spec hce
    refine ⟨fs, hcmem, ?_⟩
    cases hr : objLookup fs "region" with
    | some v =>
      simp only [hkveq]
      rw [entryField_region]
      unfold regionOf
      rw [hr, Option.getD_some]
    | none =>
      simp only [hkveq]
      rw [entryField_region]
      unfold regionOf
      rw [hr]
      rfl

/-- Witness for C4 on the Syria/Iraq run. -/
theorem output_region_from_input_witness :
    ∃ fs, JValue.jobj fs ∈ [syriaRecord, iraqRecord] ∧
      (match objLookup fs "region" with
       | some v =>
        entryField (mkEntry (.jstr "SY") (.jstr "Asia") [.jstr "IQ"])
          "region" = some v
       | none =>
        entryField (mkEntry (.jstr "SY") (.jstr "Asia") [.jstr "IQ"])
          "region" = some (.jstr "Unknown")) :=
  output_region_from_input [syriaRecord, iraqRecord]
    [(.jstr "Syria", mkEntry (.jstr "SY") (.jstr "Asia") [.jstr "IQ"]),
     (.jstr "Iraq", mkEntry (.jstr "IQ") (.jstr "Asia") [.jstr "SY"])] rfl
    (.jstr "Syria", mkEntry (.jstr "SY") (.jstr "Asia") [.jstr "IQ"])
    (List.mem_cons_self _ _)

/-- Claim C5: for every successful run, looking any name up in the output
mapping returns the entry contributed by the latest record in input order
whose loop body emitted that name (last-write-wins), and the output
mapping's keys are pairwise distinct, so overwritten records leave no
other trace. -/
theorem output_name_last_wins :
    ∀ (countries : List JValue) (out : JDict),
      process_data countries = .ok out →
      ∃ m, build_cca3_map countries = .ok m ∧
        (∀ n, jdictGet? out n =
          lastInserted (emittedEntry m) countries n) ∧
        out.Pairwise (fun a b => keyEq a.1 b.1 = false) := by
  intro countries out hp
  obtain ⟨m, hm, hloop⟩ := process_data_parts hp
  have hout := process_loop_ok_eq m countries [] out hloop
  refine ⟨m, hm, ?_, ?_⟩
  · intro n
    rw [hout, foldl_insStep_lookup, jdictGet?_nil, Option.or_none]
  · rw [hout]
    exact foldl_insStep_pairwise _ countries [] List.Pairwise.nil

/-- Witness for C5: two records named "Atlantis"; the output binds the
name to the later record's entry (cca2 "BB"). -/
theorem output_name_last_wins_witness :
    ∃ m, build_cca3_map [atlantisA, atlantisB] = .ok m ∧
      (∀ n, jdictGet?
          [(.jstr "Atlantis", mkEntry (.jstr "BB") (.jstr "Unknown") [])]
          n = lastInserted (emittedEntry m) [atlantisA, atlantisB] n) ∧
      List.Pairwise (fun a b => keyEq a.1 b.1 = false)
        [(.jstr "Atlantis", mkEntry (.jstr "BB") (.jstr "Unknown") [])] :=
  output_name_last_wins [atlantisA, atlantisB]
    [(.jstr "Atlantis", mkEntry (.jstr "BB") (.jstr "Unknown") [])] rfl

/-- Counterexample to Claim C6 as stated: an array element that is not an
object is not skipped; `.get` on it raises `AttributeError`, so both
`build_cca3_map` and `process_data` raise. -/
theorem nonobject_element_raises :
    build_cca3_map [.jnum 5] = .error .attributeError ∧
    process_data [.jnum 5] = .error .attributeError :=
  ⟨rfl, rfl⟩

/-- Claim C6 (amended): absent or malformed fields inside object records
degrade by omission, never by raising: on any input sequence of object
records whose `cca3` value and extracted name are hashable and whose
`borders` value (when present) iterates into hashable elements,
`build_cca3_map` and `process_data` both succeed. (An array element that
is not an object instead raises `AttributeError`.) -/
theorem transform_never_raises_on_safe_records :
    ∀ countries : List JValue,
      (∀ c ∈ countries, safeRecord c = true) →
      (∃ m, build_cca3_map countries = .ok m) ∧
      ∃ out, process_data countries = .ok out := by
  intro cs h
  obtain ⟨m, hm⟩ := build_from_total cs [] h
  obtain ⟨out, hout⟩ := process_loop_total m cs [] h
  refine ⟨⟨m, hm⟩, out, ?_⟩
  unfold process_data
  rw [show build_cca3_map cs = .ok m from hm]
  exact hout

/-- Witness for amended C6: the Syria record is safe and processing a
list holding it succeeds. -/
theorem transform_never_raises_on_safe_records_witness :
    safeRecord syriaRecord = true ∧
    ∃ out, process_data [syriaRecord] = .ok out :=
  ⟨rfl,
   (transform_never_raises_on_safe_records [syriaRecord]
     (fun c hc => by rw [List.mem_singleton.mp hc]; rfl)).2⟩

/-- Claim C7: on any non-2xx HTTP status, `raise_for_status` raises, the
run terminates with the unrecovered `HTTPStatusError` before the
transform and persist stages, and the output file's state is returned
unchanged. -/
theorem http_error_terminates_without_write :
    ∀ (r : HttpResponse) (fs : FileSystem),
      ¬(200 ≤ r.status ∧ r.status ≤ 299) →
      run_main r fs = (.error .httpStatusError, fs) := by
  intro r fs h
  have hf : fetch_data r = .error .httpStatusError := by
    unfold fetch_data
    rw [if_neg h]
  unfold run_main
  rw [hf]

/-- Witness for C7: HTTP 500 with a pre-existing output file. -/
theorem http_error_terminates_without_write_witness :
    run_main ⟨500, .jarr []⟩ ⟨some "previous"⟩ =
      (.error .httpStatusError, ⟨some "previous"⟩) :=
  http_error_terminates_without_write ⟨500, .jarr []⟩ ⟨some "previous"⟩
    (by decide)

/-- Claim C8: the pipeline is deterministic in the response data: two runs
on equal responses perform the same transform (`process_data` through
`transform_body`), finish with the same outcome, and, when they succeed,
leave byte-identical output file contents regardless of the file's prior
state. -/
theorem pipeline_deterministic :
    ∀ (r₁ r₂ : HttpResponse) (fs₁ fs₂ : FileSystem), r₁ = r₂ →
      transform_body r₁.body = transform_body r₂.body ∧
      (run_main r₁ fs₁).1 = (run_main r₂ fs₂).1 ∧
      ((run_main r₁ fs₁).1 = .ok () →
        (run_main r₁ fs₁).2 = (run_main r₂ fs₂).2) := by
  intro r₁ r₂ fs₁ fs₂ h
  subst h
  exact ⟨rfl, (run_main_components r₁ fs₁ fs₂).1,
    (run_main_components r₁ fs₁ fs₂).2⟩

/-- Witness for C8: a successful concrete run writes the same bytes over
two different prior file states. -/
theorem pipeline_deterministic_witness :
    (run_main ⟨200, .jarr [syriaRecord]⟩ ⟨none⟩).2 =
      (run_main ⟨200, .jarr [syriaRecord]⟩ ⟨some "previous"⟩).2 :=
  (pipeline_deterministic ⟨200, .jarr [syriaRecord]⟩
    ⟨200, .jarr [syriaRecord]⟩ ⟨none⟩ ⟨some "previous"⟩ rfl).2.2 rfl

/-- Claim C9: a record emitted without any `borders` key gets the empty
list as its `borders` field: present and empty, not absent and not null. -/
theorem missing_borders_yield_empty_list :
    ∀ (m : JDict) (fs : List (String × JValue)) (kv : JValue × JValue),
      objLookup fs "borders" = none →
      emitRecord m (.jobj fs) = .ok (some kv) →
      entryField kv.2 "borders" = some (.jarr []) := by
  intro m fs kv hb hemit
  obtain ⟨fs', bs, heq, _, _, _, hbs, hkveq⟩ := emitRecord_some_spec hemit
  injection heq with hff
  subst hff
  have hbord : bordersOf fs = .jarr [] := by
    unfold bordersOf
    rw [hb]
    rfl
  rw [hbord] at hbs
  rw [show pyIterate (JValue.jarr []) = Except.ok ([] : List JValue)
    from rfl] at hbs
  injection hbs with hbs'
  subst hbs'
  simp only [hkveq]
  exact entryField_borders _ _ _

/-- Witness for C9: a record with name and cca2 but no borders key. -/
theorem missing_borders_yield_empty_list_witness :
    entryField (mkEntry (.jstr "AA") (.jstr "Unknown") []) "borders" =
      some (.jarr []) :=
  missing_borders_yield_empty_list []
    [("name", .jobj [("common", .jstr "Atlantis")]), ("cca2", .jstr "AA")]
    (.jstr "Atlantis", mkEntry (.jstr "AA") (.jstr "Unknown") []) rfl rfl

/-- Claim C10: the `"Unknown"` default applies only when the `region` key
is absent; a present value — any JSON value, including null or the empty
string — is passed through unchanged into the output entry. -/
theorem region_present_passes_through :
    ∀ (m : JDict) (fs : List (String × JValue)) (v : JValue)
      (kv : JValue × JValue),
      objLookup fs "region" = some v →
      emitRecord m (.jobj fs) = .ok (some kv) →
      entryField kv.2 "region" = some v := by
  intro m fs v kv hr hemit
  obtain ⟨fs', bs, heq, _, _, _, _, hkveq⟩ := emitRecord_some_spec hemit
  injection heq with hff
  subst hff
  simp only [hkveq]
  rw [entryField_region]
  unfold regionOf
  rw [hr, Option.getD_some]

/-- Witness for C10: a record whose region is present with value `None`
keeps `None` in the output (no `"Unknown"` default). -/
theorem region_present_passes_through_witness :
    entryField (mkEntry (.jstr "NW") .jnull []) "region" = some .jnull :=
  region_present_passes_through []
    [("name", .jobj [("common", .jstr "Nowhere")]), ("cca2", .jstr "NW"),
     ("region", .jnull)]
    .jnull (.jstr "Nowhere", mkEntry (.jstr "NW") .jnull []) rfl rfl
